import Mathlib

/-!
Shallow embedding of the AIxChem descriptor-selection and clustering pipeline.

The repository ships the notebooks that drive the pipeline, while the library
package itself (aixchem.dataset, aixchem.transform.preprocess,
aixchem.transform.fselect, aixchem.model.cluster, aixchem.model.optimization)
is not part of the source tree checked here.  Every component below is
therefore modelled from the specification document, staying as close as
possible to the contracts stated there (CorrelationPruner,
TwoSampleFeatureSelector, Standardizer, ClusterOptimizer, Clusterer, Dataset).

Numeric values are exact rationals; a comparison `|corr| > t` (with `t ≥ 0`)
is expressed without square roots as `cov² > t² · var · var`, which is
equivalent for genuine Pearson correlations and evaluates exactly.
-/

namespace AIxChem

/-- Modelled from the spec: the Table data model — rows identified by unique,
stable row IDs, an ordered set of named numeric columns (column-major). -/
structure Table where
  rowIds : List Nat
  cols : List (String × List ℚ)
deriving DecidableEq

/-- Arithmetic mean of a column (empty column yields 0). -/
def colMean (xs : List ℚ) : ℚ := xs.sum / xs.length

/-- Population variance of a column (the convention used by the scaling and
scoring components; empty column yields 0). -/
def colVar (xs : List ℚ) : ℚ :=
  (xs.map (fun x => (x - colMean xs) ^ 2)).sum / xs.length

/-- Population covariance of two columns. -/
def colCov (xs ys : List ℚ) : ℚ :=
  (List.zipWith (fun x y => (x - colMean xs) * (y - colMean ys)) xs ys).sum / xs.length

/-- Modelled from the spec: the test `|pearson correlation| > threshold`,
written without square roots as `cov² > thr² · varₓ · varᵧ` (equivalent for
`thr ≥ 0`; a degenerate column has zero variance hence zero covariance, so it
is never above threshold, matching NaN-correlation semantics). -/
def corrAbove (thr : ℚ) (xs ys : List ℚ) : Bool :=
  decide (thr ^ 2 * (colVar xs * colVar ys) < colCov xs ys ^ 2)

/-- Modelled from the spec: the deterministic greedy sweep of
CorrelationPruner.filter — iterate columns in ascending order, keeping a
column only when no already-surviving column is correlated with it above the
threshold.  `acc` is the list of survivors so far. -/
def survAux (above : Nat → Nat → Bool) (acc : List Nat) : List Nat → List Nat
  | [] => acc
  | j :: rest =>
    if acc.any (fun i => above i j) then survAux above acc rest
    else survAux above (acc ++ [j]) rest

/-- The column value lists of a table, in column order. -/
def colData (t : Table) : List (List ℚ) := t.cols.map Prod.snd

/-- Above-threshold test between columns given by index. -/
def aboveIdx (thr : ℚ) (cs : List (List ℚ)) (i j : Nat) : Bool :=
  corrAbove thr (cs.getD i []) (cs.getD j [])

/-- Indices of columns surviving the greedy correlation sweep. -/
def survIdx (thr : ℚ) (cs : List (List ℚ)) : List Nat :=
  survAux (aboveIdx thr cs) [] (List.range cs.length)

/-- Indices of columns dropped by the greedy correlation sweep. -/
def dropIdx (thr : ℚ) (cs : List (List ℚ)) : List Nat :=
  (List.range cs.length).filter (fun j => !decide (j ∈ survIdx thr cs))

namespace CorrelationPruner

/-- Modelled from the spec: `filter(result, threshold)` — the set (list) of
column names to drop, computed by the deterministic ascending-index greedy
policy of §4.1. -/
def filter (t : Table) (thr : ℚ) : List String :=
  (dropIdx thr (colData t)).map (fun j => (t.cols.getD j ("", [])).1)

end CorrelationPruner

/-- Modelled from the spec: dropping columns from a table by name (the caller
removes the columns named by CorrelationPruner.filter externally). -/
def Table.dropColumns (t : Table) (names : List String) : Table :=
  { t with cols := t.cols.filter (fun c => !decide (c.1 ∈ names)) }

/-- The whole pruning pass: compute the names to drop, then drop them. -/
def CorrelationPruner.prune (t : Table) (thr : ℚ) : Table :=
  t.dropColumns (CorrelationPruner.filter t thr)

/-! ### Invariants of the greedy sweep -/

theorem mem_survAux_of_mem (above : Nat → Nat → Bool) :
    ∀ (l acc : List Nat), ∀ i ∈ acc, i ∈ survAux above acc l := by
  intro l
  induction l with
  | nil => intro acc i hi; simpa [survAux] using hi
  | cons j rest ih =>
    intro acc i hi
    by_cases h : acc.any (fun i => above i j)
    · simpa [survAux, h] using ih acc i hi
    · have : i ∈ acc ++ [j] := List.mem_append_left _ hi
      simpa [survAux, h] using ih (acc ++ [j]) i this

theorem mem_survAux (above : Nat → Nat → Bool) :
    ∀ (l acc : List Nat), ∀ x ∈ survAux above acc l, x ∈ acc ∨ x ∈ l := by
  intro l
  induction l with
  | nil => intro acc x hx; exact Or.inl (by simpa [survAux] using hx)
  | cons j rest ih =>
    intro acc x hx
    by_cases h : acc.any (fun i => above i j)
    · rcases ih acc x (by simpa [survAux, h] using hx) with h1 | h1
      · exact Or.inl h1
      · exact Or.inr (List.mem_cons_of_mem _ h1)
    · rcases ih (acc ++ [j]) x (by simpa [survAux, h] using hx) with h1 | h1
      · rcases List.mem_append.mp h1 with h2 | h2
        · exact Or.inl h2
        · have hx2 : x = j := List.mem_singleton.mp h2
          exact Or.inr (hx2 ▸ List.mem_cons_self _ _)
      · exact Or.inr (List.mem_cons_of_mem _ h1)

theorem survAux_pairwise (above : Nat → Nat → Bool) :
    ∀ (l acc : List Nat),
      (∀ i ∈ acc, ∀ j ∈ acc, i < j → above i j = false) →
      (∀ i ∈ acc, ∀ x ∈ l, i < x) →
      l.Pairwise (· < ·) →
      ∀ i ∈ survAux above acc l, ∀ j ∈ survAux above acc l, i < j →
        above i j = false := by
  intro l
  induction l with
  | nil =>
    intro acc hacc _ _ i hi j hj hij
    exact hacc i (by simpa [survAux] using hi) j (by simpa [survAux] using hj) hij
  | cons c rest ih =>
    intro acc hacc horder hpair
    have hpair' : rest.Pairwise (· < ·) := (List.pairwise_cons.mp hpair).2
    have hclt : ∀ r ∈ rest, c < r := (List.pairwise_cons.mp hpair).1
    by_cases h : acc.any (fun i => above i c)
    · have hstep : survAux above acc (c :: rest) = survAux above acc rest := by
        simp [survAux, h]
      rw [hstep]
      exact ih acc hacc (fun i hi x hx => horder i hi x (List.mem_cons_of_mem _ hx)) hpair'
    · have hstep : survAux above acc (c :: rest) = survAux above (acc ++ [c]) rest := by
        simp [survAux, h]
      rw [hstep]
      have hnot : ∀ i ∈ acc, above i c = false := by
        intro i hi
        have h' : acc.any (fun i => above i c) = false := by simpa using h
        simpa using List.any_eq_false.mp h' i hi
      have hacc' : ∀ i ∈ acc ++ [c], ∀ j ∈ acc ++ [c], i < j → above i j = false := by
        intro i hi j hj hij
        rcases List.mem_append.mp hi with hi1 | hi1
        · rcases List.mem_append.mp hj with hj1 | hj1
          · exact hacc i hi1 j hj1 hij
          · have hjc : j = c := List.mem_singleton.mp hj1
            rw [hjc]; exact hnot i hi1
        · have hic : i = c := List.mem_singleton.mp hi1
          rcases List.mem_append.mp hj with hj1 | hj1
          · have hjlt : j < c := horder j hj1 c (List.mem_cons_self _ _)
            omega
          · have hjc : j = c := List.mem_singleton.mp hj1
            omega
      have horder' : ∀ i ∈ acc ++ [c], ∀ x ∈ rest, i < x := by
        intro i hi x hx
        rcases List.mem_append.mp hi with hi1 | hi1
        · exact horder i hi1 x (List.mem_cons_of_mem _ hx)
        · have hic : i = c := List.mem_singleton.mp hi1
          rw [hic]; exact hclt x hx
      exact ih (acc ++ [c]) hacc' horder' hpair'

theorem survAux_dropped (above : Nat → Nat → Bool) :
    ∀ (l acc : List Nat),
      (∀ i ∈ acc, ∀ x ∈ l, i < x) →
      l.Pairwise (· < ·) →
      ∀ j ∈ l, j ∉ survAux above acc l →
        ∃ i ∈ survAux above acc l, i < j ∧ above i j = true := by
  intro l
  induction l with
  | nil => intro acc _ _ j hj _; exact absurd hj (List.not_mem_nil j)
  | cons c rest ih =>
    intro acc horder hpair j hj hjdrop
    have hpair' : rest.Pairwise (· < ·) := (List.pairwise_cons.mp hpair).2
    have hclt : ∀ r ∈ rest, c < r := (List.pairwise_cons.mp hpair).1
    by_cases h : acc.any (fun i => above i c)
    · have hstep : survAux above acc (c :: rest) = survAux above acc rest := by
        simp [survAux, h]
      rcases List.mem_cons.mp hj with hj1 | hj1
      · rcases List.any_eq_true.mp h with ⟨i, hi, habove⟩
        refine ⟨i, ?_, ?_, ?_⟩
        · rw [hstep]; exact mem_survAux_of_mem above rest acc i hi
        · rw [hj1]; exact horder i hi c (List.mem_cons_self _ _)
        · rw [hj1]; simpa using habove
      · have horder' : ∀ i ∈ acc, ∀ x ∈ rest, i < x :=
          fun i hi x hx => horder i hi x (List.mem_cons_of_mem _ hx)
        have hres := ih acc horder' hpair' j hj1 (by rw [hstep] at hjdrop; exact hjdrop)
        rw [hstep]
        exact hres
    · have hstep : survAux above acc (c :: rest) = survAux above (acc ++ [c]) rest := by
        simp [survAux, h]
      have horder' : ∀ i ∈ acc ++ [c], ∀ x ∈ rest, i < x := by
        intro i hi x hx
        rcases List.mem_append.mp hi with hi1 | hi1
        · exact horder i hi1 x (List.mem_cons_of_mem _ hx)
        · have hic : i = c := List.mem_singleton.mp hi1
          rw [hic]; exact hclt x hx
      rcases List.mem_cons.mp hj with hj1 | hj1
      · exfalso
        apply hjdrop
        rw [hstep, hj1]
        exact mem_survAux_of_mem above rest (acc ++ [c]) c
          (List.mem_append_right _ (List.mem_singleton_self c))
      · have hres := ih (acc ++ [c]) horder' hpair' j hj1 (by rw [hstep] at hjdrop; exact hjdrop)
        rw [hstep]
        exact hres

/-- Survivor pairs are never above threshold. -/
theorem survIdx_pairwise (thr : ℚ) (cs : List (List ℚ)) :
    ∀ i ∈ survIdx thr cs, ∀ j ∈ survIdx thr cs, i < j →
      aboveIdx thr cs i j = false := by
  intro i hi j hj hij
  exact survAux_pairwise (aboveIdx thr cs) (List.range cs.length) []
    (by intro i hi; exact absurd hi (List.not_mem_nil i))
    (by intro i hi; exact absurd hi (List.not_mem_nil i))
    (List.pairwise_lt_range cs.length) i hi j hj hij

/-- Every dropped column is above threshold with some earlier survivor. -/
theorem dropIdx_spec (thr : ℚ) (cs : List (List ℚ)) :
    ∀ j ∈ dropIdx thr cs, ∃ i ∈ survIdx thr cs, i < j ∧ aboveIdx thr cs i j = true := by
  intro j hj
  have hj' := List.mem_filter.mp hj
  have hrange : j ∈ List.range cs.length := hj'.1
  have hnot : j ∉ survIdx thr cs := by
    have := hj'.2
    simpa using this
  exact survAux_dropped (aboveIdx thr cs) (List.range cs.length) []
    (by intro i hi; exact absurd hi (List.not_mem_nil i))
    (List.pairwise_lt_range cs.length) j hrange hnot

/-- A list of column indices that are pairwise mutually above threshold
(a fully connected group in the correlation graph). -/
def isCorrGroup (thr : ℚ) (cs : List (List ℚ)) (g : List Nat) : Prop :=
  g.Nodup ∧ (∀ j ∈ g, j < cs.length) ∧
    (∀ i ∈ g, ∀ j ∈ g, i < j → aboveIdx thr cs i j = true)

instance (thr : ℚ) (cs : List (List ℚ)) (g : List Nat) :
    Decidable (isCorrGroup thr cs g) := by
  unfold isCorrGroup
  infer_instance

/-- How many members of a column group survive the greedy sweep. -/
def groupSurvivorCount (thr : ℚ) (cs : List (List ℚ)) (g : List Nat) : Nat :=
  (g.filter (fun j => decide (j ∈ survIdx thr cs))).length

/-- A fully connected group admits at most one survivor. -/
theorem group_surv_le_one (thr : ℚ) (cs : List (List ℚ)) (g : List Nat)
    (hg : isCorrGroup thr cs g) : groupSurvivorCount thr cs g ≤ 1 := by
  unfold groupSurvivorCount
  rcases hf : g.filter (fun j => decide (j ∈ survIdx thr cs)) with _ | ⟨x, _ | ⟨y, rest⟩⟩
  · simp
  · simp
  · exfalso
    have hnodup : (g.filter (fun j => decide (j ∈ survIdx thr cs))).Nodup :=
      hg.1.filter _
    rw [hf] at hnodup
    have hxy : x ≠ y := by
      intro hxe
      exact (List.nodup_cons.mp hnodup).1 (hxe ▸ List.mem_cons_self _ _)
    have hx : x ∈ g ∧ x ∈ survIdx thr cs := by
      have hxf : x ∈ g.filter (fun j => decide (j ∈ survIdx thr cs)) := by
        rw [hf]; exact List.mem_cons_self _ _
      have := List.mem_filter.mp hxf
      exact ⟨this.1, by simpa using this.2⟩
    have hy : y ∈ g ∧ y ∈ survIdx thr cs := by
      have hyf : y ∈ g.filter (fun j => decide (j ∈ survIdx thr cs)) := by
        rw [hf]; exact List.mem_cons_of_mem _ (List.mem_cons_self _ _)
      have := List.mem_filter.mp hyf
      exact ⟨this.1, by simpa using this.2⟩
    rcases Nat.lt_trichotomy x y with hlt | heq | hgt
    · have h1 := hg.2.2 x hx.1 y hy.1 hlt
      have h2 := survIdx_pairwise thr cs x hx.2 y hy.2 hlt
      exact Bool.noConfusion (h1.symm.trans h2)
    · exact hxy heq
    · have h1 := hg.2.2 y hy.1 x hx.1 hgt
      have h2 := survIdx_pairwise thr cs y hy.2 x hx.2 hgt
      exact Bool.noConfusion (h1.symm.trans h2)

/-- A nonempty fully connected group none of whose members is above threshold
with a surviving outsider keeps exactly one representative. -/
theorem group_surv_eq_one (thr : ℚ) (cs : List (List ℚ)) (g : List Nat)
    (hg : isCorrGroup thr cs g) (hne : g ≠ [])
    (hiso : ∀ i ∈ survIdx thr cs, i ∉ g → ∀ j ∈ g, aboveIdx thr cs i j = false) :
    groupSurvivorCount thr cs g = 1 := by
  have hle := group_surv_le_one thr cs g hg
  have hpos : 0 < groupSurvivorCount thr cs g := by
    obtain ⟨m, hm⟩ := List.exists_mem_of_ne_nil g hne
    have hsome : ∃ x ∈ g, x ∈ survIdx thr cs := by
      by_cases hms : m ∈ survIdx thr cs
      · exact ⟨m, hm, hms⟩
      · have hmr : m ∈ List.range cs.length := List.mem_range.mpr (hg.2.1 m hm)
        have hmd : m ∈ dropIdx thr cs := List.mem_filter.mpr ⟨hmr, by simpa using hms⟩
        obtain ⟨i, hisurv, _, habove⟩ := dropIdx_spec thr cs m hmd
        by_cases hig : i ∈ g
        · exact ⟨i, hig, hisurv⟩
        · exact absurd habove (by rw [hiso i hisurv hig m hm]; exact Bool.noConfusion)
    obtain ⟨x, hxg, hxs⟩ := hsome
    have hxf : x ∈ g.filter (fun j => decide (j ∈ survIdx thr cs)) :=
      List.mem_filter.mpr ⟨hxg, by simpa using hxs⟩
    unfold groupSurvivorCount
    exact List.length_pos.mpr (List.ne_nil_of_mem hxf)
  omega

/-- C2 (amended): CorrelationPruner's filter follows the deterministic
ascending-index greedy policy: (a) for each surviving column, every later
column above threshold with it is dropped; (b) every dropped column is above
threshold with some earlier surviving column (so a column correlated above
threshold with no survivor is never dropped); (c) a mutually above-threshold
group keeps at most one representative, and (d) exactly one when no member of
the group is above threshold with a surviving column outside the group. -/
theorem corrPruner_filter_greedy (thr : ℚ) (cs : List (List ℚ)) :
    (∀ i ∈ survIdx thr cs, ∀ j, j < cs.length → i < j →
        aboveIdx thr cs i j = true → j ∈ dropIdx thr cs) ∧
    (∀ j ∈ dropIdx thr cs, ∃ i ∈ survIdx thr cs, i < j ∧ aboveIdx thr cs i j = true) ∧
    (∀ g : List Nat, isCorrGroup thr cs g → groupSurvivorCount thr cs g ≤ 1) ∧
    (∀ g : List Nat, isCorrGroup thr cs g → g ≠ [] →
        (∀ i ∈ survIdx thr cs, i ∉ g → ∀ j ∈ g, aboveIdx thr cs i j = false) →
        groupSurvivorCount thr cs g = 1) := by
  refine ⟨?_, dropIdx_spec thr cs, group_surv_le_one thr cs, group_surv_eq_one thr cs⟩
  intro i hi j hjlen hij habove
  have hjnot : j ∉ survIdx thr cs := by
    intro hjsurv
    have := survIdx_pairwise thr cs i hi j hjsurv hij
    exact Bool.noConfusion (habove.symm.trans this)
  exact List.mem_filter.mpr ⟨List.mem_range.mpr hjlen, by simpa using hjnot⟩

/-- C2 counterexample: in a table of four pairwise perfectly correlated
columns, the sub-group made of the last three columns is mutually above
threshold 4/5 and has three or more members, yet zero (not exactly one) of
its members survive: the first column, outside the group, eliminates all
three. -/
theorem corrPruner_group_counterexample :
    isCorrGroup (4/5) [[1, 2, 3], [1, 2, 3], [1, 2, 3], [1, 2, 3]] [1, 2, 3] ∧
    3 ≤ ([1, 2, 3] : List Nat).length ∧
    groupSurvivorCount (4/5) [[1, 2, 3], [1, 2, 3], [1, 2, 3], [1, 2, 3]] [1, 2, 3] = 0 := by
  refine ⟨?_, by norm_num, ?_⟩
  · norm_num [isCorrGroup, aboveIdx, corrAbove, colVar, colCov, colMean]
  · norm_num [groupSurvivorCount, survIdx, survAux, aboveIdx, corrAbove, colVar,
      colCov, colMean]

/-- Witness for the amended C2 theorem: three mutually correlated columns plus
one constant (hence uncorrelated) column; the group keeps exactly one
representative. -/
theorem corrPruner_filter_greedy_witness :
    isCorrGroup (4/5) [[0, 2], [0, 4], [0, 6], [5, 5]] [0, 1, 2] ∧
    ([0, 1, 2] : List Nat) ≠ [] ∧
    (∀ i ∈ survIdx (4/5) [[0, 2], [0, 4], [0, 6], [5, 5]], i ∉ ([0, 1, 2] : List Nat) →
      ∀ j ∈ ([0, 1, 2] : List Nat), aboveIdx (4/5) [[0, 2], [0, 4], [0, 6], [5, 5]] i j = false) ∧
    groupSurvivorCount (4/5) [[0, 2], [0, 4], [0, 6], [5, 5]] [0, 1, 2] = 1 := by
  have hg : isCorrGroup (4/5) [[0, 2], [0, 4], [0, 6], [5, 5]] [0, 1, 2] := by
    norm_num [isCorrGroup, aboveIdx, corrAbove, colVar, colCov, colMean]
  have hiso : ∀ i ∈ survIdx (4/5) [[0, 2], [0, 4], [0, 6], [5, 5]],
      i ∉ ([0, 1, 2] : List Nat) →
      ∀ j ∈ ([0, 1, 2] : List Nat),
        aboveIdx (4/5) [[0, 2], [0, 4], [0, 6], [5, 5]] i j = false := by
    norm_num [survIdx, survAux, aboveIdx, corrAbove, colVar, colCov, colMean]
  exact ⟨hg, by simp, hiso,
    (corrPruner_filter_greedy (4/5) [[0, 2], [0, 4], [0, 6], [5, 5]]).2.2.2
      [0, 1, 2] hg (by simp) hiso⟩

/-! ### Standardizer -/

/-- Modelled from the spec: z-scoring one column with the statistics stored in
the ScalingModel — `x ↦ (x − μ) / s`. -/
def standardizeCol (xs : List ℚ) (μ s : ℚ) : List ℚ :=
  xs.map (fun x => (x - μ) / s)

namespace Standardizer

/-- Modelled from the spec: `fit(table)` computes the per-column mean and
(population) variance; the standard deviation is the square root of the
recorded variance. -/
def fit (t : Table) : List (String × ℚ × ℚ) :=
  t.cols.map (fun c => (c.1, colMean c.2, colVar c.2))

/-- Modelled from the spec: `transform` applies `(x − mean) / std` per column,
with the column means taken from the fitted statistics and the per-column
standard deviations supplied as `stds` (kept as an explicit argument because a
standard deviation is generally irrational). -/
def transform (t : Table) (stds : List ℚ) : Table :=
  { t with
    cols := List.zipWith (fun c s => (c.1, standardizeCol c.2 (colMean c.2) s)) t.cols stds }

end Standardizer

theorem sum_map_affine (a b : ℚ) (xs : List ℚ) :
    (xs.map (fun x => a * x + b)).sum = a * xs.sum + b * xs.length := by
  induction xs with
  | nil => simp
  | cons x xs ih =>
    simp only [List.map_cons, List.sum_cons, ih, List.length_cons]
    push_cast
    ring

theorem mean_map_affine (a b : ℚ) (xs : List ℚ) (hne : xs ≠ []) :
    colMean (xs.map (fun x => a * x + b)) = a * colMean xs + b := by
  have hn : (xs.length : ℚ) ≠ 0 := by
    have := List.length_pos.mpr hne
    positivity
  unfold colMean
  rw [List.length_map, sum_map_affine]
  field_simp

theorem var_map_affine (a b : ℚ) (xs : List ℚ) (hne : xs ≠ []) :
    colVar (xs.map (fun x => a * x + b)) = a ^ 2 * colVar xs := by
  unfold colVar
  rw [List.length_map, mean_map_affine a b xs hne, List.map_map]
  have hfun : ((fun x => (x - (a * colMean xs + b)) ^ 2) ∘ (fun x => a * x + b)) =
      fun x => a ^ 2 * (x - colMean xs) ^ 2 := by
    funext x
    simp only [Function.comp]
    ring
  rw [hfun]
  have h2 : (fun x : ℚ => a ^ 2 * (x - colMean xs) ^ 2) =
      (fun y : ℚ => a ^ 2 * y + 0) ∘ (fun x : ℚ => (x - colMean xs) ^ 2) := by
    funext x
    simp [Function.comp]
  rw [h2, ← List.map_map, sum_map_affine, List.length_map]
  ring

theorem standardizeCol_eq_affine (μ s : ℚ) (xs : List ℚ) :
    standardizeCol xs μ s = xs.map (fun x => (1 / s) * x + (-(μ / s))) := by
  unfold standardizeCol
  have hfun : (fun x : ℚ => (x - μ) / s) = fun x : ℚ => (1 / s) * x + (-(μ / s)) := by
    funext x
    ring
  rw [hfun]

/-- C4: after Standardizer fit-then-transform, every non-degenerate column of
the output has mean exactly 0 and (population) variance exactly 1 — the
transform applies `(x − mean)/std` per column with the per-column statistics
computed at fit time (`s` is the stored standard deviation: `s² = variance`).
In the exact-rational embedding "≈ within numerical tolerance" sharpens to
equality. -/
theorem standardizer_output_normalized (t : Table) (stds : List ℚ) :
    (Standardizer.transform t stds).cols =
      List.zipWith (fun c s => (c.1, standardizeCol c.2 (colMean c.2) s)) t.cols stds ∧
    (∀ c ∈ t.cols, ∀ s : ℚ, c.2 ≠ [] → s ^ 2 = colVar c.2 → colVar c.2 ≠ 0 →
      colMean (standardizeCol c.2 (colMean c.2) s) = 0 ∧
      colVar (standardizeCol c.2 (colMean c.2) s) = 1) := by
  constructor
  · rfl
  · intro c _ s hne hs hvar
    have hs0 : s ≠ 0 := by
      intro h0
      rw [h0] at hs
      exact hvar (by rw [← hs]; norm_num)
    rw [standardizeCol_eq_affine]
    constructor
    · rw [mean_map_affine _ _ _ hne]
      field_simp
    · rw [var_map_affine _ _ _ hne]
      rw [← hs]
      field_simp

/-- Witness for C4: the column [0, 2] has mean 1 and population variance 1, so
with stored standard deviation 1 the standardized column has mean 0 and
variance 1. -/
theorem standardizer_output_normalized_witness :
    (([0, 2] : List ℚ) ≠ [] ∧ (1 : ℚ) ^ 2 = colVar [0, 2] ∧ colVar [0, 2] ≠ 0) ∧
    (colMean (standardizeCol [0, 2] (colMean [0, 2]) 1) = 0 ∧
      colVar (standardizeCol [0, 2] (colMean [0, 2]) 1) = 1) := by
  have hne : ([0, 2] : List ℚ) ≠ [] := by simp
  have hs : (1 : ℚ) ^ 2 = colVar [0, 2] := by norm_num [colVar, colMean]
  have hv : colVar ([0, 2] : List ℚ) ≠ 0 := by norm_num [colVar, colMean]
  exact ⟨⟨hne, hs, hv⟩,
    (standardizer_output_normalized (Table.mk [0, 1] [("A", [0, 2])]) [1]).2
      ("A", [0, 2]) (List.mem_singleton_self _) 1 hne hs hv⟩

/-- Division that fails (returns none) on a zero divisor: this makes a
divide-by-zero observable in the embedding, where `q / 0` would otherwise be
the silent total-function junk value 0. -/
def checkedDiv (a b : ℚ) : Option ℚ :=
  if b = 0 then none else some (a / b)

/-- Modelled from the spec §4.3 recommended policy: a zero standard deviation
(constant column) is replaced by 1 before dividing, so the transform never
divides by zero; the column is flagged separately. -/
def safeScale (s : ℚ) : ℚ :=
  if s = 0 then 1 else s

/-- Fallible traversal: fails if any single application fails. -/
def optionMapList (f : ℚ → Option ℚ) : List ℚ → Option (List ℚ)
  | [] => some []
  | x :: xs =>
    match f x, optionMapList f xs with
    | some y, some ys => some (y :: ys)
    | _, _ => none

/-- Modelled from the spec: the guarded per-column transform — each value is
centered and divided by the (zero-guarded) scale through checked division. -/
def safeStandardizeCol (xs : List ℚ) (μ s : ℚ) : Option (List ℚ) :=
  optionMapList (fun x => checkedDiv (x - μ) (safeScale s)) xs

/-- Names of zero-variance (degenerate / constant) columns of a table, the
flag set the spec asks the Standardizer to report. -/
def degenerateCols (t : Table) : List String :=
  (t.cols.filter (fun c => decide (colVar c.2 = 0))).map Prod.fst

theorem safeScale_ne_zero (s : ℚ) : safeScale s ≠ 0 := by
  unfold safeScale
  split
  · exact one_ne_zero
  · assumption

theorem safeStandardizeCol_total (xs : List ℚ) (μ s : ℚ) :
    safeStandardizeCol xs μ s = some (xs.map (fun x => (x - μ) / safeScale s)) := by
  unfold safeStandardizeCol
  induction xs with
  | nil => rfl
  | cons x xs ih =>
    have hdiv : checkedDiv (x - μ) (safeScale s) = some ((x - μ) / safeScale s) := by
      unfold checkedDiv
      rw [if_neg (safeScale_ne_zero s)]
    simp only [optionMapList, hdiv, ih, List.map_cons]

/-- The sum of a column whose entries are all equal to `a`. -/
theorem sum_of_const (a : ℚ) : ∀ xs : List ℚ, (∀ x ∈ xs, x = a) →
    xs.sum = a * xs.length := by
  intro xs
  induction xs with
  | nil => simp
  | cons x xs ih =>
    intro hconst
    have hx : x = a := hconst x (List.mem_cons_self _ _)
    have hxs : ∀ y ∈ xs, y = a := fun y hy => hconst y (List.mem_cons_of_mem _ hy)
    simp only [List.sum_cons, ih hxs, List.length_cons, hx]
    push_cast
    ring

/-- A constant column has zero (population) variance. -/
theorem colVar_const (xs : List ℚ) (hconst : ∀ x ∈ xs, ∀ y ∈ xs, x = y) :
    colVar xs = 0 := by
  cases xs with
  | nil => simp [colVar, colMean]
  | cons a tl =>
    have hall : ∀ x ∈ a :: tl, x = a :=
      fun x hx => hconst x hx a (List.mem_cons_self _ _)
    have hmean : colMean (a :: tl) = a := by
      unfold colMean
      rw [sum_of_const a (a :: tl) hall]
      have hn : ((a :: tl).length : ℚ) ≠ 0 := Nat.cast_ne_zero.mpr (by simp)
      field_simp
    have hzero : ∀ y ∈ (a :: tl).map (fun x => (x - colMean (a :: tl)) ^ 2), y = 0 := by
      intro y hy
      obtain ⟨x, hx, hxy⟩ := List.mem_map.mp hy
      rw [← hxy, hmean, hall x hx]
      ring
    unfold colVar
    rw [List.sum_eq_zero hzero]
    simp

/-- C5: the Standardizer never performs an unguarded division by zero — the
checked transform always succeeds, on a zero standard deviation it behaves as
if the standard deviation were 1 (pure centering), and a constant column is
detected and flagged among the degenerate columns. -/
theorem standardizer_degenerate_safe :
    (∀ (xs : List ℚ) (μ s : ℚ),
      safeStandardizeCol xs μ s = some (xs.map (fun x => (x - μ) / safeScale s))) ∧
    (∀ (xs : List ℚ) (μ : ℚ),
      safeStandardizeCol xs μ 0 = some (xs.map (fun x => x - μ))) ∧
    (∀ (t : Table), ∀ c ∈ t.cols, (∀ x ∈ c.2, ∀ y ∈ c.2, x = y) →
      c.1 ∈ degenerateCols t) := by
  refine ⟨safeStandardizeCol_total, ?_, ?_⟩
  · intro xs μ
    rw [safeStandardizeCol_total]
    have hfun : (fun x : ℚ => (x - μ) / safeScale 0) = fun x : ℚ => x - μ := by
      funext x
      unfold safeScale
      norm_num
    rw [hfun]
  · intro t c hc hconst
    unfold degenerateCols
    exact List.mem_map.mpr ⟨c, List.mem_filter.mpr ⟨hc, by
      simpa using colVar_const c.2 hconst⟩, rfl⟩

/-- Witness for C5: the spec scenario — a column constantly 5.0; the checked
transform succeeds (no divide-by-zero) and the column is flagged degenerate. -/
theorem standardizer_degenerate_safe_witness :
    (∀ x ∈ ([5, 5, 5] : List ℚ), ∀ y ∈ ([5, 5, 5] : List ℚ), x = y) ∧
    safeStandardizeCol [5, 5, 5] 5 0 = some [0, 0, 0] ∧
    "A" ∈ degenerateCols (Table.mk [0, 1, 2] [("A", [5, 5, 5])]) := by
  have hconst : ∀ x ∈ ([5, 5, 5] : List ℚ), ∀ y ∈ ([5, 5, 5] : List ℚ), x = y := by
    intro x hx y hy
    simp only [List.mem_cons, List.not_mem_nil, or_false, or_self] at hx hy
    rw [hx, hy]
  refine ⟨hconst, ?_, ?_⟩
  · rw [standardizer_degenerate_safe.2.1 [5, 5, 5] 5]
    norm_num
  · exact standardizer_degenerate_safe.2.2 (Table.mk [0, 1, 2] [("A", [5, 5, 5])])
      ("A", [5, 5, 5]) (List.mem_singleton_self _) hconst

/-! ### Idempotence of correlation pruning -/

theorem filter_eq_map_idx {α : Type} (d : α) :
    ∀ (c : List α) (p : α → Bool) (q : Nat → Bool),
      (∀ i, i < c.length → p (c.getD i d) = q i) →
      c.filter p = ((List.range c.length).filter q).map (fun i => c.getD i d) := by
  intro c
  induction c with
  | nil =>
    intro p q h
    simp
  | cons a c ih =>
    intro p q h
    have h0 : p a = q 0 := by simpa using h 0 (by simp)
    have hsh : ∀ i, i < c.length → p (c.getD i d) = (q ∘ Nat.succ) i := by
      intro i hi
      simpa using h (i + 1) (by simpa using Nat.succ_lt_succ hi)
    have hmain := ih p (q ∘ Nat.succ) hsh
    by_cases hq : q 0 = true
    · have hpa : p a = true := by rw [h0]; exact hq
      simp [List.range_succ_eq_map, List.filter_cons, hpa, hq, List.filter_map,
        Function.comp, hmain]
    · have hq0 : q 0 = false := by simpa using hq
      have hpa : p a = false := by rw [h0]; exact hq0
      simp [List.range_succ_eq_map, List.filter_cons, hpa, hq0, List.filter_map,
        Function.comp, hmain]

/-- With duplicate-free column names, equal names at valid positions force
equal positions. -/
theorem names_inj (c : List (String × List ℚ))
    (hnodup : (c.map Prod.fst).Nodup) (i j : Nat)
    (hi : i < c.length) (hj : j < c.length)
    (heq : (c.getD i ("", [])).1 = (c.getD j ("", [])).1) : i = j := by
  have hi' : i < (c.map Prod.fst).length := by simpa using hi
  have hj' : j < (c.map Prod.fst).length := by simpa using hj
  have hgi : (c.map Prod.fst).get ⟨i, hi'⟩ = (c.getD i ("", [])).1 := by
    rw [List.get_map, List.getD_eq_get c ("", []) hi]
  have hgj : (c.map Prod.fst).get ⟨j, hj'⟩ = (c.getD j ("", [])).1 := by
    rw [List.get_map, List.getD_eq_get c ("", []) hj]
  have : (c.map Prod.fst).get ⟨i, hi'⟩ = (c.map Prod.fst).get ⟨j, hj'⟩ := by
    rw [hgi, hgj, heq]
  have := List.Nodup.get_inj_iff hnodup |>.mp this
  simpa using congrArg Fin.val this

/-- The second component of a defaulted column lookup agrees with the lookup
in the column-data list. -/
theorem getD_snd (c : List (String × List ℚ)) :
    ∀ i, (c.getD i ("", [])).2 = (c.map Prod.snd).getD i [] := by
  intro i
  induction c generalizing i with
  | nil => simp [List.getD]
  | cons a c ih =>
    cases i with
    | zero => simp
    | succ i => simpa using ih i

/-- The columns the pruning pass keeps are exactly the columns at the indices
that the index-level sweep keeps (requires duplicate-free column names, since
the external drop is by name). -/
theorem prune_cols_eq (t : Table) (thr : ℚ)
    (hnodup : (t.cols.map Prod.fst).Nodup) :
    (CorrelationPruner.prune t thr).cols =
      ((List.range t.cols.length).filter
          (fun i => !decide (i ∈ dropIdx thr (colData t)))).map
        (fun i => t.cols.getD i ("", [])) := by
  unfold CorrelationPruner.prune Table.dropColumns
  apply filter_eq_map_idx ("", []) t.cols
  intro i hi
  congr 1
  rw [decide_eq_decide]
  constructor
  · intro hmem
    unfold CorrelationPruner.filter at hmem
    obtain ⟨j, hj, hname⟩ := List.mem_map.mp hmem
    have hjrange : j ∈ List.range t.cols.length := by
      have := List.mem_filter.mp hj
      have : j ∈ List.range (colData t).length := this.1
      simpa [colData] using this
    have hjlt : j < t.cols.length := List.mem_range.mp hjrange
    have := names_inj t.cols hnodup j i hjlt hi hname
    rw [← this]
    exact hj
  · intro hmem
    unfold CorrelationPruner.filter
    exact List.mem_map.mpr ⟨i, hmem, rfl⟩

/-- Correlation with an empty (out-of-range) column is never above threshold. -/
theorem corrAbove_nil_right (thr : ℚ) (xs : List ℚ) :
    corrAbove thr xs [] = false := by
  unfold corrAbove colCov colVar colMean
  simp

/-- A kept index is a survivor. -/
theorem mem_survIdx_of_kept (thr : ℚ) (cs : List (List ℚ)) (i : Nat)
    (hi : i ∈ (List.range cs.length).filter (fun i => !decide (i ∈ dropIdx thr cs))) :
    i ∈ survIdx thr cs := by
  have h := List.mem_filter.mp hi
  by_contra hns
  have : i ∈ dropIdx thr cs := List.mem_filter.mpr ⟨h.1, by simpa using hns⟩
  have h2 := h.2
  simp only [Bool.not_eq_true', decide_eq_false_iff_not] at h2
  exact h2 this

/-- After pruning, no two remaining columns are above threshold. -/
theorem pruned_pairwise_false (t : Table) (thr : ℚ)
    (hnodup : (t.cols.map Prod.fst).Nodup) :
    ∀ p q : Nat, p < q →
      aboveIdx thr (colData (CorrelationPruner.prune t thr)) p q = false := by
  intro p q hpq
  have hdata : colData (CorrelationPruner.prune t thr) =
      ((List.range t.cols.length).filter
          (fun i => !decide (i ∈ dropIdx thr (colData t)))).map
        (fun i => (colData t).getD i []) := by
    unfold colData
    rw [prune_cols_eq t thr hnodup, List.map_map]
    apply List.map_congr_left
    intro i _
    simp only [Function.comp]
    exact getD_snd t.cols i
  set S := (List.range t.cols.length).filter
      (fun i => !decide (i ∈ dropIdx thr (colData t))) with hSdef
  rw [hdata]
  by_cases hq : q < S.length
  · have hp : p < S.length := lt_trans hpq hq
    have hplen : p < (S.map (fun i => (colData t).getD i [])).length := by simpa using hp
    have hqlen : q < (S.map (fun i => (colData t).getD i [])).length := by simpa using hq
    have hgp : (S.map (fun i => (colData t).getD i [])).getD p [] =
        (colData t).getD (S.get ⟨p, hp⟩) [] := by
      rw [List.getD_eq_get _ _ hplen, List.get_map]
    have hgq : (S.map (fun i => (colData t).getD i [])).getD q [] =
        (colData t).getD (S.get ⟨q, hq⟩) [] := by
      rw [List.getD_eq_get _ _ hqlen, List.get_map]
    have hSpair : S.Pairwise (· < ·) :=
      List.Pairwise.filter _ (List.pairwise_lt_range t.cols.length)
    have hmono : S.get ⟨p, hp⟩ < S.get ⟨q, hq⟩ := by
      have := List.pairwise_iff_get.mp hSpair ⟨p, hp⟩ ⟨q, hq⟩ (by simpa using hpq)
      exact this
    have hlen2 : (colData t).length = t.cols.length := by simp [colData]
    have hpmem : S.get ⟨p, hp⟩ ∈ survIdx thr (colData t) := by
      apply mem_survIdx_of_kept thr (colData t)
      rw [hlen2, ← hSdef]
      exact List.get_mem S p hp
    have hqmem : S.get ⟨q, hq⟩ ∈ survIdx thr (colData t) := by
      apply mem_survIdx_of_kept thr (colData t)
      rw [hlen2, ← hSdef]
      exact List.get_mem S q hq
    have hfalse := survIdx_pairwise thr (colData t) _ hpmem _ hqmem hmono
    unfold aboveIdx at hfalse ⊢
    rw [hgp, hgq]
    exact hfalse
  · have hfar : (S.map (fun i => (colData t).getD i [])).length ≤ q := by
      simpa using Nat.le_of_not_lt hq
    have hgq : (S.map (fun i => (colData t).getD i [])).getD q [] = [] :=
      List.getD_eq_default _ _ hfar
    unfold aboveIdx
    rw [hgq]
    exact corrAbove_nil_right thr _

theorem dropColumns_nil (t : Table) : t.dropColumns [] = t := by
  unfold Table.dropColumns
  simp

/-- C7: correlation pruning is idempotent — running the filter on the table
already pruned at the same threshold computes an empty set of columns to
drop, hence pruning again leaves the table unchanged.  (Column names are
required to be duplicate-free, as in the Table data model, because the caller
removes columns by name.) -/
theorem corrPruner_idempotent (t : Table) (thr : ℚ)
    (hnodup : (t.cols.map Prod.fst).Nodup) :
    CorrelationPruner.filter (CorrelationPruner.prune t thr) thr = [] ∧
    CorrelationPruner.prune (CorrelationPruner.prune t thr) thr =
      CorrelationPruner.prune t thr := by
  have hdrop : dropIdx thr (colData (CorrelationPruner.prune t thr)) = [] := by
    unfold dropIdx
    rw [List.filter_eq_nil]
    intro j hj
    simp only [Bool.not_eq_true', decide_eq_false_iff_not, not_not]
    by_contra hns
    obtain ⟨i, _, hlt, htrue⟩ := survAux_dropped
      (aboveIdx thr (colData (CorrelationPruner.prune t thr)))
      (List.range (colData (CorrelationPruner.prune t thr)).length) []
      (by intro i hi; exact absurd hi (List.not_mem_nil i))
      (List.pairwise_lt_range _) j hj hns
    rw [pruned_pairwise_false t thr hnodup i j hlt] at htrue
    exact Bool.noConfusion htrue
  have hfilter : CorrelationPruner.filter (CorrelationPruner.prune t thr) thr = [] := by
    unfold CorrelationPruner.filter
    rw [hdrop]
    rfl
  refine ⟨hfilter, ?_⟩
  show Table.dropColumns _ _ = _
  rw [hfilter, dropColumns_nil]

/-- Witness for C7: a concrete three-column table with two strongly correlated
columns; after pruning at threshold 4/5 the filter finds nothing more to
drop. -/
theorem corrPruner_idempotent_witness :
    ((Table.mk [0, 1] [("A", [0, 2]), ("B", [0, 4]), ("C", [5, 5])]).cols.map
        Prod.fst).Nodup ∧
    CorrelationPruner.filter
      (CorrelationPruner.prune
        (Table.mk [0, 1] [("A", [0, 2]), ("B", [0, 4]), ("C", [5, 5])]) (4/5)) (4/5) = [] := by
  have hnodup : ((Table.mk [0, 1] [("A", [0, 2]), ("B", [0, 4]), ("C", [5, 5])]).cols.map
      Prod.fst).Nodup := by
    simp
  exact ⟨hnodup,
    (corrPruner_idempotent (Table.mk [0, 1] [("A", [0, 2]), ("B", [0, 4]), ("C", [5, 5])])
      (4/5) hnodup).1⟩

/-! ### Two-sample feature selection -/

/-- Modelled from the spec §7: the error kinds surfaced by the pipeline; where
applicable an error carries the offending row ID / column name / k. -/
inductive PipelineError
  | referenceNotFound (id : Nat)
  | emptySelection
  | insufficientData (k : Nat)
  | schemaMismatch
  | degenerateColumn (name : String)
  | notFitted
deriving DecidableEq

/-- Modelled from the spec §4.2: the two selection modes — top `n_best`
columns, or all columns scoring above a threshold. -/
inductive SelectMode
  | nbest (m : Nat)
  | thresh (q : ℚ)
deriving DecidableEq

/-- Position of a row ID in the row-ID list (0 when absent; callers check
membership first). -/
def posOf (r : Nat) : List Nat → Nat
  | [] => 0
  | x :: xs => if x = r then 0 else posOf r xs + 1

def insertAsc (x : ℚ) : List ℚ → List ℚ
  | [] => [x]
  | y :: ys => if x ≤ y then x :: y :: ys else y :: insertAsc x ys

def sortAsc : List ℚ → List ℚ
  | [] => []
  | x :: xs => insertAsc x (sortAsc xs)

/-- Modelled from the spec: empirical quantile of a column, nearest-rank on
the sorted values (the spec fixes no interpolation rule). -/
def quantileOf (xs : List ℚ) (p : ℚ) : ℚ :=
  (sortAsc xs).getD (min (xs.length - 1) (p * xs.length).floor.toNat) 0

/-- Modelled from the spec: clip a column to its [lo, hi] quantile range. -/
def clipQuantiles (xs : List ℚ) (lo hi : ℚ) : List ℚ :=
  xs.map (fun x => max (quantileOf xs lo) (min (quantileOf xs hi) x))

/-- Modelled from the spec: per-column separation score
`|v_pos − v_neg| / population std`, represented by its square `d² / var` so
that it stays rational (squaring is monotone on the nonnegative scores, so
the ranking is unchanged); a zero-variance column scores 0. -/
def sepScoreSq (xs : List ℚ) (posIdx negIdx : Nat) : ℚ :=
  if colVar xs = 0 then 0
  else (xs.getD posIdx 0 - xs.getD negIdx 0) ^ 2 / colVar xs

/-- Insert into a list sorted by descending score. -/
def insertRanked (x : String × ℚ) : List (String × ℚ) → List (String × ℚ)
  | [] => [x]
  | y :: ys => if y.2 < x.2 then x :: y :: ys else y :: insertRanked x ys

/-- Sort column/score pairs by descending score (deterministic insertion
sort). -/
def rankSort : List (String × ℚ) → List (String × ℚ)
  | [] => []
  | x :: xs => insertRanked x (rankSort xs)

namespace TwoSampleFeatureSelector

/-- Modelled from the spec §4.2: clip every column to the quantile range,
then score it by the separation between the two reference rows. -/
def scoredColumns (t : Table) (posIdx negIdx : Nat) (lo hi : ℚ) :
    List (String × ℚ) :=
  t.cols.map (fun c => (c.1, sepScoreSq (clipQuantiles c.2 lo hi) posIdx negIdx))

/-- Modelled from the spec §4.2: `select(table, positive_id, negative_id,
n_best | threshold, quantile_clip)` — fails with ReferenceNotFoundError when
a reference row ID is absent, ranks columns by descending separation score,
and either takes the top n_best or keeps all columns above the threshold
(failing with EmptySelectionError when none qualify). -/
def select (t : Table) (idx idy : Nat) (mode : SelectMode) (lo hi : ℚ) :
    Except PipelineError (List String) :=
  if idx ∉ t.rowIds then .error (.referenceNotFound idx)
  else if idy ∉ t.rowIds then .error (.referenceNotFound idy)
  else
    let ranked := rankSort (scoredColumns t (posOf idx t.rowIds) (posOf idy t.rowIds) lo hi)
    match mode with
    | .nbest m => .ok ((ranked.take m).map Prod.fst)
    | .thresh q =>
      let sel := ranked.filter (fun p => decide (q < p.2))
      if sel.isEmpty then .error .emptySelection else .ok (sel.map Prod.fst)

end TwoSampleFeatureSelector

theorem insertRanked_length (x : String × ℚ) :
    ∀ l : List (String × ℚ), (insertRanked x l).length = l.length + 1 := by
  intro l
  induction l with
  | nil => rfl
  | cons y ys ih =>
    unfold insertRanked
    split
    · simp
    · simp [ih]

theorem rankSort_length : ∀ l : List (String × ℚ), (rankSort l).length = l.length := by
  intro l
  induction l with
  | nil => rfl
  | cons x xs ih =>
    unfold rankSort
    rw [insertRanked_length, ih]
    rfl

/-- C3: with both references present and at least `m` columns, n_best
selection returns exactly `m` columns, and the selection is a deterministic
function of its inputs (equal inputs give the identical ordered column
list — all stochastic or hidden state is absent from the embedding). -/
theorem select_nbest_count (t : Table) (idx idy m : Nat) (lo hi : ℚ)
    (hx : idx ∈ t.rowIds) (hy : idy ∈ t.rowIds) (hm : m ≤ t.cols.length) :
    (∃ names : List String,
      TwoSampleFeatureSelector.select t idx idy (SelectMode.nbest m) lo hi =
        .ok names ∧ names.length = m) ∧
    (∀ (t' : Table) (idx' idy' m' : Nat) (lo' hi' : ℚ),
      t = t' → idx = idx' → idy = idy' → m = m' → lo = lo' → hi = hi' →
      TwoSampleFeatureSelector.select t idx idy (SelectMode.nbest m) lo hi =
        TwoSampleFeatureSelector.select t' idx' idy' (SelectMode.nbest m') lo' hi') := by
  constructor
  · refine ⟨((rankSort (TwoSampleFeatureSelector.scoredColumns t (posOf idx t.rowIds)
        (posOf idy t.rowIds) lo hi)).take m).map Prod.fst, ?_, ?_⟩
    · unfold TwoSampleFeatureSelector.select
      rw [if_neg (not_not_intro hx), if_neg (not_not_intro hy)]
    · rw [List.length_map, List.length_take, rankSort_length]
      unfold TwoSampleFeatureSelector.scoredColumns
      rw [List.length_map]
      omega
  · intro t' idx' idy' m' lo' hi' h1 h2 h3 h4 h5 h6
    subst h1; subst h2; subst h3; subst h4; subst h5; subst h6
    rfl

/-- Witness for C3: a two-row, two-column table with references 7 and 8;
n_best = 1 returns exactly one column. -/
theorem select_nbest_count_witness :
    (7 ∈ (Table.mk [7, 8] [("A", [1, 2]), ("B", [3, 3])]).rowIds ∧
      8 ∈ (Table.mk [7, 8] [("A", [1, 2]), ("B", [3, 3])]).rowIds ∧
      1 ≤ (Table.mk [7, 8] [("A", [1, 2]), ("B", [3, 3])]).cols.length) ∧
    (∃ names : List String,
      TwoSampleFeatureSelector.select (Table.mk [7, 8] [("A", [1, 2]), ("B", [3, 3])])
        7 8 (SelectMode.nbest 1) 0 1 = .ok names ∧ names.length = 1) := by
  refine ⟨⟨by simp, by simp, by simp⟩, ?_⟩
  exact (select_nbest_count (Table.mk [7, 8] [("A", [1, 2]), ("B", [3, 3])]) 7 8 1 0 1
    (by simp) (by simp) (by simp)).1

/-- C9: feature selection fails with ReferenceNotFoundError exactly when one
of the two reference row IDs is absent from the table, and in that case no
selection is produced at all (the stage fails fast; the input table is not
touched — selection is a pure function of it). -/
theorem select_refNotFound_iff (t : Table) (idx idy : Nat) (mode : SelectMode)
    (lo hi : ℚ) :
    ((∃ i, TwoSampleFeatureSelector.select t idx idy mode lo hi =
        .error (PipelineError.referenceNotFound i)) ↔
      (idx ∉ t.rowIds ∨ idy ∉ t.rowIds)) ∧
    ((idx ∉ t.rowIds ∨ idy ∉ t.rowIds) →
      ∀ names, TwoSampleFeatureSelector.select t idx idy mode lo hi ≠ .ok names) := by
  by_cases hx : idx ∈ t.rowIds
  · by_cases hy : idy ∈ t.rowIds
    · constructor
      · constructor
        · rintro ⟨i, hi⟩
          unfold TwoSampleFeatureSelector.select at hi
          rw [if_neg (not_not_intro hx), if_neg (not_not_intro hy)] at hi
          cases mode with
          | nbest m => exact Except.noConfusion hi
          | thresh q =>
            simp only at hi
            split at hi
            · exact PipelineError.noConfusion (Except.error.inj hi)
            · exact Except.noConfusion hi
        · intro h
          rcases h with h | h
          · exact absurd hx h
          · exact absurd hy h
      · intro h
        rcases h with h | h
        · exact absurd hx h
        · exact absurd hy h
    · constructor
      · constructor
        · intro _
          exact Or.inr hy
        · intro _
          refine ⟨idy, ?_⟩
          unfold TwoSampleFeatureSelector.select
          rw [if_neg (not_not_intro hx), if_pos hy]
      · intro _ names
        unfold TwoSampleFeatureSelector.select
        rw [if_neg (not_not_intro hx), if_pos hy]
        exact Except.noConfusion
  · constructor
    · constructor
      · intro _
        exact Or.inl hx
      · intro _
        refine ⟨idx, ?_⟩
        unfold TwoSampleFeatureSelector.select
        rw [if_pos hx]
    · intro _ names
      unfold TwoSampleFeatureSelector.select
      rw [if_pos hx]
      exact Except.noConfusion

/-- Witness for C9: reference 9 is absent from a table with rows {0, 1}, so
selection fails with ReferenceNotFoundError. -/
theorem select_refNotFound_iff_witness :
    (9 ∉ (Table.mk [0, 1] [("A", [1, 2])]).rowIds ∨
      1 ∉ (Table.mk [0, 1] [("A", [1, 2])]).rowIds) ∧
    (∃ i, TwoSampleFeatureSelector.select (Table.mk [0, 1] [("A", [1, 2])])
      9 1 (SelectMode.nbest 1) 0 1 = .error (PipelineError.referenceNotFound i)) := by
  have habs : 9 ∉ (Table.mk [0, 1] [("A", [1, 2])]).rowIds ∨
      1 ∉ (Table.mk [0, 1] [("A", [1, 2])]).rowIds := by
    left
    simp
  exact ⟨habs,
    (select_refNotFound_iff (Table.mk [0, 1] [("A", [1, 2])]) 9 1
      (SelectMode.nbest 1) 0 1).1.mpr habs⟩

/-! ### k-means clustering: Clusterer and ClusterOptimizer

The spec requires every stochastic choice to be driven by the explicit random
seed; the embedding makes this literal by deriving all initializations from a
deterministic seeded stream.  Distances are squared Euclidean distances so
that everything stays in exact rational arithmetic. -/

/-- Deterministic pseudo-random stream (linear congruential generator) seeded
by the explicit random seed of the spec. -/
def lcgNext (s : Nat) : Nat := (1103515245 * s + 12345) % 2147483648

def lcgStream (s : Nat) : Nat → List Nat
  | 0 => []
  | n + 1 => lcgNext s :: lcgStream (lcgNext s) n

theorem lcgStream_length (s : Nat) : ∀ n, (lcgStream s n).length = n := by
  intro n
  induction n generalizing s with
  | zero => rfl
  | succ n ih => simp [lcgStream, ih]

/-- Squared Euclidean distance between two feature vectors. -/
def sqDist (x y : List ℚ) : ℚ := (List.zipWith (fun a b => (a - b) ^ 2) x y).sum

def argminAux : List ℚ → ℚ → Nat → Nat → Nat
  | [], _, bestIdx, _ => bestIdx
  | d :: ds, bestVal, bestIdx, cur =>
    if d < bestVal then argminAux ds d cur (cur + 1)
    else argminAux ds bestVal bestIdx (cur + 1)

/-- Index of the minimum of a list (first index on ties, 0 for []). -/
def argmin : List ℚ → Nat
  | [] => 0
  | d :: ds => argminAux ds d 0 1

/-- The cluster label of a point: the index of its nearest center. -/
def nearest (centers : List (List ℚ)) (x : List ℚ) : Nat :=
  argmin (centers.map (sqDist x))

/-- Componentwise mean of a set of points. -/
def meanVec (dim : Nat) (ps : List (List ℚ)) : List ℚ :=
  (List.range dim).map (fun i => colMean (ps.map (fun p => p.getD i 0)))

/-- One Lloyd update: each center becomes the mean of its assigned points; an
empty cluster keeps its old center. -/
def lloydStep (pts : List (List ℚ)) (dim : Nat) (centers : List (List ℚ)) :
    List (List ℚ) :=
  (List.range centers.length).map (fun j =>
    let assigned := pts.filter (fun p => nearest centers p == j)
    if assigned.isEmpty then centers.getD j [] else meanVec dim assigned)

/-- Iterate Lloyd updates to a fixpoint, up to maxIter rounds (the fuel that
models sklearn's max_iter bound). -/
def lloydIter (pts : List (List ℚ)) (dim : Nat) : Nat → List (List ℚ) → List (List ℚ)
  | 0, centers => centers
  | fuel + 1, centers =>
    let c2 := lloydStep pts dim centers
    if c2 = centers then centers else lloydIter pts dim fuel c2

/-- Modelled from the spec glossary: inertia — sum of squared distances from
each point to its assigned cluster center. -/
def inertia (pts : List (List ℚ)) (centers : List (List ℚ)) : ℚ :=
  (pts.map (fun p => sqDist p (centers.getD (nearest centers p) []))).sum

/-- One k-means fit from one seeded random initialization: draw k row indices
from the stream as initial centers, run Lloyd, return labels and inertia. -/
def fitOnce (pts : List (List ℚ)) (dim k seed maxIter : Nat) : List Nat × ℚ :=
  let init := (lcgStream seed k).map (fun d => pts.getD (d % pts.length) [])
  let centers := lloydIter pts dim maxIter init
  (pts.map (nearest centers), inertia pts centers)

/-- Reduce restarts keeping the lowest inertia (the earlier run on ties):
the associative/commutative-fold reduction of spec §5. -/
def bestRun (first : List Nat × ℚ) : List (List Nat × ℚ) → List Nat × ℚ
  | [] => first
  | r :: rs => bestRun (if r.2 < first.2 then r else first) rs

/-- The rows of a table as feature vectors (row-major view). -/
def Table.points (t : Table) : List (List ℚ) :=
  (List.range t.rowIds.length).map (fun i => t.cols.map (fun c => c.2.getD i 0))

/-- Modelled from the spec §4.4/§4.5: run n_init independent seeded restarts
and keep the lowest-inertia labeling. -/
def fitBest (t : Table) (k ninit seed maxIter : Nat) : List Nat × ℚ :=
  match (lcgStream seed ninit).map
      (fun s => fitOnce (Table.points t) t.cols.length k s maxIter) with
  | [] => ([], 0)
  | r :: rs => bestRun r rs

namespace Clusterer

/-- Modelled from the spec §4.5: `fit(table, k, n_init, random_seed)` — the
ClusterAssignment mapping each row ID to its cluster label. -/
def fit (t : Table) (k ninit seed maxIter : Nat) : List (Nat × Nat) :=
  t.rowIds.zip (fitBest t k ninit seed maxIter).1

end Clusterer

/-- Mean of the (squared) distances from a point to a list of points. -/
def meanDistTo (x : List ℚ) (ps : List (List ℚ)) : ℚ :=
  colMean (ps.map (sqDist x))

/-- Modelled from the spec glossary: per-point silhouette — mean intra-cluster
distance versus mean nearest-other-cluster distance, (b − a) / max a b;
0 for singleton clusters and degenerate cases. -/
def silhouette (pts : List (List ℚ)) (labels : List Nat) (k i : Nat) : ℚ :=
  let x := pts.getD i []
  let li := labels.getD i 0
  let members := fun j => ((pts.zip labels).filter (fun pl => pl.2 == j)).map Prod.fst
  let same := members li
  if same.length ≤ 1 then 0
  else
    let a := (same.map (sqDist x)).sum / ((same.length : ℚ) - 1)
    let others := (List.range k).filter
      (fun j => !(j == li) && !(members j).isEmpty)
    match others.map (fun j => meanDistTo x (members j)) with
    | [] => 0
    | b0 :: rest =>
      let b := rest.foldl min b0
      if max a b = 0 then 0 else (b - a) / max a b

/-- Modelled from the spec: one record of the OptimizationReport — k, final
inertia, mean silhouette and per-sample silhouettes indexed by row ID. -/
structure OptRecord where
  k : Nat
  inertia : ℚ
  meanSil : ℚ
  sils : List (Nat × ℚ)
deriving DecidableEq

namespace ClusterOptimizer

/-- The record produced for a single k of the sweep. -/
def record (t : Table) (k ninit seed maxIter : Nat) : OptRecord :=
  let best := fitBest t k ninit seed maxIter
  let sils := (List.range t.rowIds.length).map (silhouette (Table.points t) best.1 k)
  { k := k, inertia := best.2, meanSil := colMean sils, sils := t.rowIds.zip sils }

/-- Modelled from the spec §4.4: `optimize(table, k_range, n_init,
random_seed)` — fails with InsufficientDataError if any requested k is below
2 or exceeds row count − 1; otherwise one record per k in the requested
order. -/
def optimize (t : Table) (ks : List Nat) (ninit seed maxIter : Nat) :
    Except PipelineError (List OptRecord) :=
  match ks.find? (fun k => decide (k < 2) || decide (t.rowIds.length < k + 1)) with
  | some k => .error (.insufficientData k)
  | none => .ok (ks.map (fun k => record t k ninit seed maxIter))

end ClusterOptimizer

namespace Clusterer

/-- Modelled from the spec §4.5: the n_repeats re-fits of `statistics`, each
with an independently drawn seed from the seeded stream. -/
def repeatFits (t : Table) (k ninit maxIter n seed : Nat) : List (List (Nat × Nat)) :=
  (lcgStream seed n).map (fun s => fit t k ninit s maxIter)

/-- The label an assignment gives to a row ID (0 when the row is absent). -/
def labelOf (a : List (Nat × Nat)) (r : Nat) : Nat :=
  match a.find? (fun p => p.1 == r) with
  | some p => p.2
  | none => 0

/-- Fraction of the repeats in which row r lands in the same cluster as the
reference row. -/
def coFrac (t : Table) (k ninit maxIter n seed r ref : Nat) : ℚ :=
  ((repeatFits t k ninit maxIter n seed).countP
      (fun a => labelOf a r == labelOf a ref) : ℚ) / (n : ℚ)

/-- Modelled from the spec §4.5: the StabilityReport — for every row and every
designated reference, the per-reference co-clustering fraction. -/
def statistics (t : Table) (k ninit maxIter n seed : Nat) (refs : List Nat) :
    List (Nat × Nat × ℚ) :=
  t.rowIds.bind
    (fun r => refs.map (fun ref => (r, ref, coFrac t k ninit maxIter n seed r ref)))

end Clusterer

theorem repeatFits_length (t : Table) (k ninit maxIter n seed : Nat) :
    (Clusterer.repeatFits t k ninit maxIter n seed).length = n := by
  unfold Clusterer.repeatFits
  rw [List.length_map, lcgStream_length]

theorem coFrac_bounds (t : Table) (k ninit maxIter n seed r ref : Nat)
    (hn : 0 < n) :
    0 ≤ Clusterer.coFrac t k ninit maxIter n seed r ref ∧
      Clusterer.coFrac t k ninit maxIter n seed r ref ≤ 1 := by
  have hnq : (0 : ℚ) < n := by exact_mod_cast hn
  unfold Clusterer.coFrac
  constructor
  · apply div_nonneg _ (le_of_lt hnq)
    positivity
  · rw [div_le_one hnq]
    have hle : (Clusterer.repeatFits t k ninit maxIter n seed).countP
        (fun a => Clusterer.labelOf a r == Clusterer.labelOf a ref) ≤ n := by
      calc (Clusterer.repeatFits t k ninit maxIter n seed).countP
            (fun a => Clusterer.labelOf a r == Clusterer.labelOf a ref)
          ≤ (Clusterer.repeatFits t k ninit maxIter n seed).length :=
            List.countP_le_length _
        _ = n := repeatFits_length t k ninit maxIter n seed
    exact_mod_cast hle

theorem coFrac_self (t : Table) (k ninit maxIter n seed ref : Nat) (hn : 0 < n) :
    Clusterer.coFrac t k ninit maxIter n seed ref ref = 1 := by
  have hnq : (n : ℚ) ≠ 0 := by positivity
  unfold Clusterer.coFrac
  have hall : (Clusterer.repeatFits t k ninit maxIter n seed).countP
      (fun a => Clusterer.labelOf a ref == Clusterer.labelOf a ref) =
      (Clusterer.repeatFits t k ninit maxIter n seed).length := by
    rw [List.countP_eq_length]
    intro a _
    simp
  rw [hall, repeatFits_length]
  field_simp

/-- C6: every entry of the stability report is a fraction in [0, 1], and a
reference row that is part of the repeats' input co-clusters with itself in
every repeat, so its own fraction is exactly 1. -/
theorem statistics_fractions (t : Table) (k ninit maxIter n seed : Nat)
    (refs : List Nat) (hn : 0 < n) :
    (∀ e ∈ Clusterer.statistics t k ninit maxIter n seed refs,
      0 ≤ e.2.2 ∧ e.2.2 ≤ 1) ∧
    (∀ ref ∈ t.rowIds, Clusterer.coFrac t k ninit maxIter n seed ref ref = 1) := by
  constructor
  · intro e he
    unfold Clusterer.statistics at he
    obtain ⟨r, _, he2⟩ := List.mem_bind.mp he
    obtain ⟨ref, _, he3⟩ := List.mem_map.mp he2
    rw [← he3]
    exact coFrac_bounds t k ninit maxIter n seed r ref hn
  · intro ref _
    exact coFrac_self t k ninit maxIter n seed ref hn

/-- Witness for C6: a concrete 3-row table, k = 2, two repeats; the report
entries are all in [0, 1] and the reference co-clusters with itself with
fraction 1. -/
theorem statistics_fractions_witness :
    0 < 2 ∧ 0 ∈ (Table.mk [0, 1, 2] [("A", [1, 2, 9])]).rowIds ∧
    (∀ e ∈ Clusterer.statistics (Table.mk [0, 1, 2] [("A", [1, 2, 9])]) 2 1 5 2 1 [0],
      0 ≤ e.2.2 ∧ e.2.2 ≤ 1) ∧
    Clusterer.coFrac (Table.mk [0, 1, 2] [("A", [1, 2, 9])]) 2 1 5 2 1 0 0 = 1 := by
  have hthm := statistics_fractions (Table.mk [0, 1, 2] [("A", [1, 2, 9])]) 2 1 5 2 1 [0]
    (by norm_num)
  exact ⟨by norm_num, by simp, hthm.1, hthm.2 0 (by simp)⟩

/-- C1: two-run determinism of the k-means fit and of the optimization sweep —
every stochastic choice is a function of the explicit seed, so two runs on
the same table, k, n_init and seed produce bit-for-bit identical assignments
and metrics.  (In the embedding all of the state threading is explicit, so
the property is the statement that the result depends on nothing besides the
listed inputs.) -/
theorem kmeans_two_run_determinism
    (t t' : Table) (k k' ninit ninit' seed seed' maxIter maxIter' : Nat)
    (ht : t = t') (hk : k = k') (hn : ninit = ninit') (hs : seed = seed')
    (hm : maxIter = maxIter') :
    Clusterer.fit t k ninit seed maxIter = Clusterer.fit t' k' ninit' seed' maxIter' ∧
    ∀ ks ks' : List Nat, ks = ks' →
      ClusterOptimizer.optimize t ks ninit seed maxIter =
        ClusterOptimizer.optimize t' ks' ninit' seed' maxIter' := by
  subst ht; subst hk; subst hn; subst hs; subst hm
  exact ⟨rfl, fun ks ks' h => by rw [h]⟩

/-- Witness for C1: the determinism theorem applied at a concrete table, k,
n_init and seed. -/
theorem kmeans_two_run_determinism_witness :
    Clusterer.fit (Table.mk [0, 1, 2] [("A", [1, 2, 9])]) 2 3 42 5 =
      Clusterer.fit (Table.mk [0, 1, 2] [("A", [1, 2, 9])]) 2 3 42 5 ∧
    ClusterOptimizer.optimize (Table.mk [0, 1, 2] [("A", [1, 2, 9])]) [2] 3 42 5 =
      ClusterOptimizer.optimize (Table.mk [0, 1, 2] [("A", [1, 2, 9])]) [2] 3 42 5 := by
  have hthm := kmeans_two_run_determinism
    (Table.mk [0, 1, 2] [("A", [1, 2, 9])]) (Table.mk [0, 1, 2] [("A", [1, 2, 9])])
    2 2 3 3 42 42 5 5 rfl rfl rfl rfl rfl
  exact ⟨hthm.1, hthm.2 [2] [2] rfl⟩

/-- C8: the optimization sweep fails with InsufficientDataError exactly when
some requested k is below 2 or exceeds the row count minus 1; when every k
satisfies 2 ≤ k ≤ n − 1 it succeeds with exactly one record per requested k,
in order. -/
theorem optimize_insufficient (t : Table) (ks : List Nat) (ninit seed maxIter : Nat) :
    ((∃ k, ClusterOptimizer.optimize t ks ninit seed maxIter =
        .error (PipelineError.insufficientData k)) ↔
      ∃ k ∈ ks, k < 2 ∨ t.rowIds.length - 1 < k) ∧
    ((∀ k ∈ ks, 2 ≤ k ∧ k ≤ t.rowIds.length - 1) →
      ∃ recs, ClusterOptimizer.optimize t ks ninit seed maxIter = .ok recs ∧
        recs.map OptRecord.k = ks) := by
  constructor
  · constructor
    · rintro ⟨k, hk⟩
      unfold ClusterOptimizer.optimize at hk
      cases hfind : ks.find? (fun k => decide (k < 2) || decide (t.rowIds.length < k + 1)) with
      | none => rw [hfind] at hk; exact Except.noConfusion hk
      | some k0 =>
        have hp := List.find?_some hfind
        have hmem := List.mem_of_find?_eq_some hfind
        simp only [Bool.or_eq_true, decide_eq_true_eq] at hp
        exact ⟨k0, hmem, by omega⟩
    · rintro ⟨k0, hmem, hbad⟩
      unfold ClusterOptimizer.optimize
      cases hfind : ks.find? (fun k => decide (k < 2) || decide (t.rowIds.length < k + 1)) with
      | none =>
        exfalso
        have hnone := List.find?_eq_none.mp hfind k0 hmem
        simp only [Bool.or_eq_true, decide_eq_true_eq] at hnone
        omega
      | some k1 => exact ⟨k1, rfl⟩
  · intro hgood
    have hfind : ks.find? (fun k => decide (k < 2) || decide (t.rowIds.length < k + 1)) = none := by
      rw [List.find?_eq_none]
      intro k hk
      have := hgood k hk
      simp only [Bool.or_eq_true, decide_eq_true_eq]
      omega
    refine ⟨ks.map (fun k => ClusterOptimizer.record t k ninit seed maxIter), ?_, ?_⟩
    · unfold ClusterOptimizer.optimize
      rw [hfind]
    · rw [List.map_map]
      have hid : (OptRecord.k ∘ fun k => ClusterOptimizer.record t k ninit seed maxIter) = id := by
        funext k
        rfl
      rw [hid, List.map_id]

/-- Witness for C8: four rows, ks = [2, 3] — all within bounds, so optimize
succeeds with one record per k. -/
theorem optimize_insufficient_witness :
    (∀ k ∈ ([2, 3] : List Nat), 2 ≤ k ∧
      k ≤ (Table.mk [0, 1, 2, 3] [("A", [1, 2, 9, 4])]).rowIds.length - 1) ∧
    (∃ recs, ClusterOptimizer.optimize (Table.mk [0, 1, 2, 3] [("A", [1, 2, 9, 4])])
      [2, 3] 1 42 3 = .ok recs ∧ recs.map OptRecord.k = [2, 3]) := by
  have hgood : ∀ k ∈ ([2, 3] : List Nat), 2 ≤ k ∧
      k ≤ (Table.mk [0, 1, 2, 3] [("A", [1, 2, 9, 4])]).rowIds.length - 1 := by
    intro k hk
    simp only [List.mem_cons, List.not_mem_nil, or_false] at hk
    rcases hk with h | h <;> subst h <;> simp
  exact ⟨hgood,
    (optimize_insufficient (Table.mk [0, 1, 2, 3] [("A", [1, 2, 9, 4])]) [2, 3] 1 42 3).2 hgood⟩

/-! ### Dataset: raw snapshot versus working feature table -/

/-- Modelled from the notebook API (`Dataset(..., store_raw=True)`) and the
spec's ownership rules: a Dataset holds the immutable raw snapshot alongside
the working feature table X that the pipeline stages rewrite. -/
structure Dataset where
  raw : Table
  X : Table
deriving DecidableEq

/-- Modelled from the notebook API: `Dataset.drop(columns=[...])` removes
columns from the working table only. -/
def Dataset.drop (d : Dataset) (names : List String) : Dataset :=
  { d with X := d.X.dropColumns names }

/-- Keep only the named columns of a table (how the feature-selection result
is applied to the working table). -/
def Table.keepColumns (t : Table) (names : List String) : Table :=
  { t with cols := t.cols.filter (fun c => decide (c.1 ∈ names)) }

/-- The pipeline stages the notebooks chain after loading. -/
inductive Stage
  | dropStage (names : List String)
  | correlationStage (thr : ℚ)
  | fselectStage (idx idy : Nat) (mode : SelectMode) (lo hi : ℚ)
  | scalingStage (stds : List ℚ)

/-- Modelled from the spec §2/§3: every stage consumes and produces the
working feature table; a failing stage fails fast and produces no dataset. -/
def applyStage : Stage → Dataset → Except PipelineError Dataset
  | .dropStage names, d => .ok (d.drop names)
  | .correlationStage thr, d => .ok { d with X := CorrelationPruner.prune d.X thr }
  | .fselectStage idx idy mode lo hi, d =>
    match TwoSampleFeatureSelector.select d.X idx idy mode lo hi with
    | .ok names => .ok { d with X := d.X.keepColumns names }
    | .error e => .error e
  | .scalingStage stds, d => .ok { d with X := Standardizer.transform d.X stds }

/-- Run a chain of stages, stopping at the first error. -/
def applyAll : List Stage → Dataset → Except PipelineError Dataset
  | [], d => .ok d
  | s :: rest, d =>
    match applyStage s d with
    | .ok d2 => applyAll rest d2
    | .error e => .error e

/-- Look up a value by row ID and column name in the raw snapshot (how the
notebooks retrieve the dropped SMILES column after clustering). -/
def rawLookup (d : Dataset) (r : Nat) (name : String) : Option ℚ :=
  match d.raw.cols.find? (fun c => c.1 == name) with
  | some c => some (c.2.getD (posOf r d.raw.rowIds) 0)
  | none => none

theorem applyStage_raw (s : Stage) (d d2 : Dataset)
    (h : applyStage s d = .ok d2) : d2.raw = d.raw := by
  cases s with
  | dropStage names =>
    simp only [applyStage] at h
    rw [← Except.ok.inj h]
    rfl
  | correlationStage thr =>
    simp only [applyStage] at h
    rw [← Except.ok.inj h]
  | fselectStage idx idy mode lo hi =>
    simp only [applyStage] at h
    cases hsel : TwoSampleFeatureSelector.select d.X idx idy mode lo hi with
    | ok names =>
      rw [hsel] at h
      rw [← Except.ok.inj h]
    | error e =>
      rw [hsel] at h
      exact Except.noConfusion h
  | scalingStage stds =>
    simp only [applyStage] at h
    rw [← Except.ok.inj h]

/-- C10: dropping columns (for example the textual identifier column) and all
subsequent pipeline stages modify only the working feature table: whenever
the chain succeeds, the stored raw table is exactly the original one, so any
dropped column can still be looked up by row ID in the raw table — in
particular after clustering, which in this embedding is a pure function of
the working table and touches no dataset at all. -/
theorem pipeline_preserves_raw :
    ∀ (stages : List Stage) (d d2 : Dataset),
      applyAll stages d = .ok d2 →
      d2.raw = d.raw ∧
      ∀ (r : Nat) (name : String), rawLookup d2 r name = rawLookup d r name := by
  intro stages
  induction stages with
  | nil =>
    intro d d2 h
    have := Except.ok.inj h
    rw [this]
    exact ⟨rfl, fun _ _ => rfl⟩
  | cons s rest ih =>
    intro d d2 h
    unfold applyAll at h
    split at h
    · rename_i dmid hmid
      have hraw1 := applyStage_raw s d dmid hmid
      have hres := ih dmid d2 h
      refine ⟨hres.1.trans hraw1, ?_⟩
      intro r name
      have : rawLookup d2 r name = rawLookup dmid r name := hres.2 r name
      rw [this]
      unfold rawLookup
      rw [hraw1]
    · exact Except.noConfusion h

/-- Witness for C10: dropping the "SMILES" column succeeds and the raw table
still answers lookups for it. -/
theorem pipeline_preserves_raw_witness :
    applyAll [Stage.dropStage ["SMILES"]]
        (Dataset.mk (Table.mk [0, 1] [("SMILES", [1, 2]), ("A", [3, 4])])
          (Table.mk [0, 1] [("SMILES", [1, 2]), ("A", [3, 4])])) =
      .ok (Dataset.mk (Table.mk [0, 1] [("SMILES", [1, 2]), ("A", [3, 4])])
        (Table.mk [0, 1] [("A", [3, 4])])) ∧
    (Dataset.mk (Table.mk [0, 1] [("SMILES", [1, 2]), ("A", [3, 4])])
        (Table.mk [0, 1] [("A", [3, 4])])).raw =
      (Dataset.mk (Table.mk [0, 1] [("SMILES", [1, 2]), ("A", [3, 4])])
        (Table.mk [0, 1] [("SMILES", [1, 2]), ("A", [3, 4])])).raw ∧
    rawLookup (Dataset.mk (Table.mk [0, 1] [("SMILES", [1, 2]), ("A", [3, 4])])
        (Table.mk [0, 1] [("A", [3, 4])])) 0 "SMILES" =
      rawLookup (Dataset.mk (Table.mk [0, 1] [("SMILES", [1, 2]), ("A", [3, 4])])
        (Table.mk [0, 1] [("SMILES", [1, 2]), ("A", [3, 4])])) 0 "SMILES" := by
  have happ : applyAll [Stage.dropStage ["SMILES"]]
      (Dataset.mk (Table.mk [0, 1] [("SMILES", [1, 2]), ("A", [3, 4])])
        (Table.mk [0, 1] [("SMILES", [1, 2]), ("A", [3, 4])])) =
      .ok (Dataset.mk (Table.mk [0, 1] [("SMILES", [1, 2]), ("A", [3, 4])])
        (Table.mk [0, 1] [("A", [3, 4])])) := by
    rfl
  have hres := pipeline_preserves_raw [Stage.dropStage ["SMILES"]]
    (Dataset.mk (Table.mk [0, 1] [("SMILES", [1, 2]), ("A", [3, 4])])
      (Table.mk [0, 1] [("SMILES", [1, 2]), ("A", [3, 4])]))
    (Dataset.mk (Table.mk [0, 1] [("SMILES", [1, 2]), ("A", [3, 4])])
      (Table.mk [0, 1] [("A", [3, 4])])) happ
  exact ⟨happ, hres.1, hres.2 0 "SMILES"⟩

end AIxChem
